import Mathlib

/-!
Verification development for the lobrow module loader (src/lobrow.js).

Strings are modelled as lists of characters (`Str`).  The JavaScript helper
functions `startsWith`, `endsWith` and `removePrefixMaybe` from the source are
translated below; `str.indexOf(p) === 0` is exactly "p is a prefix of str" and
`str.lastIndexOf(suf) === str.length - suf.length` (with a non-negative index)
is exactly "suf is a suffix of str", so they are rendered with `isPrefixOf` /
`isSuffixOf`.
-/

namespace Lobrow

abbrev Str := List Char

/-- Source helper `startsWith(str, prefix) = str.indexOf(prefix) === 0`. -/
def jsStartsWith (s p : Str) : Bool := p.isPrefixOf s

/-- Source helper `endsWith(str, suffix)`: the last occurrence of `suffix`
sits exactly at `str.length - suffix.length`. -/
def jsEndsWith (s suf : Str) : Bool := suf.isSuffixOf s

/-- Source helper `removePrefixMaybe(prefix, str)`. -/
def removePrefixMaybe (p s : Str) : Str :=
  if p.isPrefixOf s then s.drop p.length else s

/-- Index of the last occurrence of character `c`, as in
`name.lastIndexOf("/")` (`none` plays the role of `-1`). -/
def lastIndexOfChar (c : Char) : Str → Option Nat
  | [] => none
  | x :: xs =>
    match lastIndexOfChar c xs with
    | some i => some (i + 1)
    | none => if x = c then some 0 else none

/-- Tail part of the regular expression `^[.][.]([/][.][.])*$` used by
`_goToParentDir`: zero or more repetitions of the three characters `/..`.
The repeated group has fixed width, so the regex is deterministic and this
structural recursion decides it exactly. -/
def ascentTail : Str → Bool
  | [] => true
  | c1 :: c2 :: c3 :: rest => c1 == '/' && c2 == '.' && c3 == '.' && ascentTail rest
  | _ => false

/-- The regular expression test `/^[.][.]([/][.][.])*$/.test(name)` in
`_goToParentDir`: the whole string is `..` followed by repetitions of `/..`. -/
def isPureAscent : Str → Bool
  | c1 :: c2 :: rest => c1 == '.' && c2 == '.' && ascentTail rest
  | _ => false

/-- `e._goToParentDir` from the source.  `e._CURRENT_DIRECTORY` is `""`,
i.e. the empty list. -/
def goToParentDir (name : Str) : Str :=
  if name = [] then ['.', '.']
  else if isPureAscent name then '.' :: '.' :: '/' :: name
  else
    match lastIndexOfChar '/' name with
    | none => []
    | some i => name.take i

/-- `e._descend` from the source. -/
def descend (base path : Str) : Str :=
  if base.length = 0 then path else base ++ '/' :: path

/-- `e._isLegalNormalizedName` from the source. -/
def isLegalNormalizedName (name : Str) : Bool :=
  !(jsEndsWith name ['/']) && !(jsStartsWith name ['.', '/'])

/-- JavaScript values that can appear as entries of `e.globalNames` or of the
module cache.  `vobj` is an opaque object (the numeric tag is only an
identity); `vnum`/`vbool` stand for the value shapes whose `typeof` is neither
`"object"`, `"string"` nor `"undefined"`. -/
inductive JSVal where
  | vundefined : JSVal
  | vnull : JSVal
  | vbool : Bool → JSVal
  | vnum : Int → JSVal
  | vstr : Str → JSVal
  | vobj : Nat → JSVal
deriving DecidableEq

/-- `typeof v === "object"` (true for objects and for `null`). -/
def JSVal.typeofObject : JSVal → Bool
  | vnull => true
  | vobj _ => true
  | _ => false

/-- JavaScript truthiness, as used by `if (!moduleCache[importName])`. -/
def JSVal.truthy : JSVal → Bool
  | vundefined => false
  | vnull => false
  | vbool b => b
  | vnum n => n != 0
  | vstr s => !s.isEmpty
  | vobj _ => true

/-- The module cache of the resolver (`moduleCache`), a property table. -/
abbrev JSCache := List (Str × JSVal)

/-- Property read `moduleCache[k]`: `undefined` when the key is absent. -/
def cacheGet (cache : JSCache) (k : Str) : JSVal :=
  match cache.lookup k with
  | some v => v
  | none => .vundefined

/-- Property write `moduleCache[k] = v` (replaces an existing entry). -/
def cacheSet (cache : JSCache) (k : Str) (v : JSVal) : JSCache :=
  match cache with
  | [] => [(k, v)]
  | (k0, v0) :: rest => if k0 = k then (k, v) :: rest else (k0, v0) :: cacheSet rest k v

/-- Key-presence test (`hasOwnProperty`). -/
def cacheHas (cache : JSCache) (k : Str) : Bool :=
  (cache.lookup k).isSome

/-- `e.globalNames`: either a plain object (property table) or a function
from the bare name to a value. -/
inductive GlobalNames where
  | gtable : List (Str × JSVal) → GlobalNames
  | gfunc : (Str → JSVal) → GlobalNames

/-- The lookup performed by `_resolveImportName` on a bare name: call the
table if it is a function, otherwise read the property (absent property reads
give `undefined`). -/
def lookupGlobal : GlobalNames → Str → JSVal
  | .gtable entries, n =>
    match entries.lookup n with
    | some v => v
    | none => .vundefined
  | .gfunc f, n => f n

/-- The errors `_resolveImportName` can throw. -/
inductive ResolveErr where
  | illegalBase : Str → ResolveErr
  | unknownGlobalName : Str → ResolveErr
  | illegalMapping : JSVal → ResolveErr
deriving DecidableEq

/-- The `while (startsWith(importName, "../"))` loop of `_resolveImportName`:
each iteration strips one `../` from the import (`removePrefixMaybe` with a
prefix that is known to match) and ascends the base once more.  Returns the
final base and the remaining import. -/
def ascendLoop : Str → Str → Str × Str
  | base, '.' :: '.' :: '/' :: rest => ascendLoop (goToParentDir base) rest
  | base, imp => (base, imp)

/-- `e._resolveImportName` from the source, with the module-cache pre-seeding
side effect made explicit (the result carries the updated cache).  The
`switch (typeof resolvedName)` is rendered by matching on the value shape:
`vnull`/`vobj` are the `"object"` cases, `vstr` the `"string"` case, `vundefined`
the `"undefined"` case and the remaining shapes fall to `default`. -/
def resolveImportName (gn : GlobalNames) (cache : JSCache) (baseName impName : Str) :
    Except ResolveErr (Str × JSCache) :=
  if !(isLegalNormalizedName baseName) then
    .error (.illegalBase baseName)
  else if jsStartsWith impName ['/'] then
    .ok (impName, cache)
  else if jsStartsWith impName ['.', '/'] || jsStartsWith impName ['.', '.', '/'] then
    let base1 := goToParentDir baseName
    if jsStartsWith impName ['.', '/'] then
      .ok (descend base1 (removePrefixMaybe ['.', '/'] impName), cache)
    else
      let p := ascendLoop base1 impName
      .ok (descend p.1 p.2, cache)
  else
    match lookupGlobal gn impName with
    | .vnull =>
      if !(cacheGet cache impName).truthy then
        .ok (impName, cacheSet cache impName .vnull)
      else
        .ok (impName, cache)
    | .vobj i =>
      if !(cacheGet cache impName).truthy then
        .ok (impName, cacheSet cache impName (.vobj i))
      else
        .ok (impName, cache)
    | .vstr s => .ok (s, cache)
    | .vundefined => .error (.unknownGlobalName impName)
    | .vbool b => .error (.illegalMapping (.vbool b))
    | .vnum n => .error (.illegalMapping (.vnum n))

/-- The bare-name branch of `_resolveImportName` in isolation (the `else`
arm that consults the global name table), used to state that bare imports are
routed to the table rather than resolved relatively. -/
def resolveGlobalName (gn : GlobalNames) (cache : JSCache) (impName : Str) :
    Except ResolveErr (Str × JSCache) :=
  match lookupGlobal gn impName with
  | .vnull =>
    if !(cacheGet cache impName).truthy then
      .ok (impName, cacheSet cache impName .vnull)
    else
      .ok (impName, cache)
  | .vobj i =>
    if !(cacheGet cache impName).truthy then
      .ok (impName, cacheSet cache impName (.vobj i))
    else
      .ok (impName, cache)
  | .vstr s => .ok (s, cache)
  | .vundefined => .error (.unknownGlobalName impName)
  | .vbool b => .error (.illegalMapping (.vbool b))
  | .vnum n => .error (.illegalMapping (.vnum n))

/-- For a legal base, an import that is neither absolute nor relative is
handled entirely by the bare-name branch. -/
lemma resolve_bare (gn : GlobalNames) (cache : JSCache) (base imp : Str)
    (hb : isLegalNormalizedName base = true)
    (h1 : jsStartsWith imp ['/'] = false)
    (h2 : jsStartsWith imp ['.', '/'] = false)
    (h3 : jsStartsWith imp ['.', '.', '/'] = false) :
    resolveImportName gn cache base imp = resolveGlobalName gn cache imp := by
  unfold resolveImportName resolveGlobalName
  simp [hb, h1, h2, h3]

/-- Claim C2 as stated is false: the four quoted input pairs do not produce
the quoted outputs.  `_goToParentDir` is applied once to move from the base
file to its directory and then once more for every `../` segment, so each
result has one more ascent than the claim states. -/
theorem c2_counterexample :
    (resolveImportName (.gtable []) [] ['a', '/', 'b'] ['.', '.', '/', 'x'] =
        .ok (['x'], []) ∧ (['x'] : Str) ≠ ['a', '/', 'x'])
    ∧ (resolveImportName (.gtable []) [] ['a'] ['.', '.', '/', 'x'] =
        .ok (['.', '.', '/', 'x'], []) ∧ (['.', '.', '/', 'x'] : Str) ≠ ['x'])
    ∧ (resolveImportName (.gtable []) [] ['a'] ['.', '.', '/', '.', '.', '/', 'x'] =
        .ok (['.', '.', '/', '.', '.', '/', 'x'], [])
        ∧ (['.', '.', '/', '.', '.', '/', 'x'] : Str) ≠ ['.', '.', '/', 'x'])
    ∧ (resolveImportName (.gtable []) [] ['.', '.', '/', '.', '.'] ['.', '.', '/', 'x'] =
        .ok (['.', '.', '/', '.', '.', '/', '.', '.', '/', '.', '.', '/', 'x'], [])
        ∧ (['.', '.', '/', '.', '.', '/', '.', '.', '/', '.', '.', '/', 'x'] : Str)
          ≠ ['.', '.', '/', '.', '.', '/', 'x']) :=
  ⟨⟨rfl, by decide⟩, ⟨rfl, by decide⟩, ⟨rfl, by decide⟩, ⟨rfl, by decide⟩⟩

/-- Claim C2, amended to the outputs the code actually produces:
`("a/b", "../x")` yields `"x"`; `("a", "../x")` yields `"../x"`;
`("a", "../../x")` yields `"../../x"`; and for the pure-ascent base,
`("../..", "../x")` yields `"../../../../x"`. -/
theorem c2_amended :
    resolveImportName (.gtable []) [] ['a', '/', 'b'] ['.', '.', '/', 'x'] = .ok (['x'], [])
    ∧ resolveImportName (.gtable []) [] ['a'] ['.', '.', '/', 'x'] =
        .ok (['.', '.', '/', 'x'], [])
    ∧ resolveImportName (.gtable []) [] ['a'] ['.', '.', '/', '.', '.', '/', 'x'] =
        .ok (['.', '.', '/', '.', '.', '/', 'x'], [])
    ∧ resolveImportName (.gtable []) [] ['.', '.', '/', '.', '.'] ['.', '.', '/', 'x'] =
        .ok (['.', '.', '/', '.', '.', '/', '.', '.', '/', '.', '.', '/', 'x'], []) :=
  ⟨rfl, rfl, rfl, rfl⟩

/-- Claim C8: for every base identifier that starts with `./` or ends with
`/` and every import name and table/cache state, `_resolveImportName` throws
the illegal-base error before doing anything else. -/
theorem c8_illegal_base (gn : GlobalNames) (cache : JSCache) (base imp : Str)
    (h : jsStartsWith base ['.', '/'] = true ∨ jsEndsWith base ['/'] = true) :
    resolveImportName gn cache base imp = .error (.illegalBase base) := by
  have hlegal : isLegalNormalizedName base = false := by
    unfold isLegalNormalizedName
    rcases h with h | h <;> simp [h]
  unfold resolveImportName
  simp [hlegal]

/-- Witness for C8 at the base `"./foo"`-style input `"./f"`. -/
theorem c8_illegal_base_witness :
    jsStartsWith ['.', '/', 'f'] ['.', '/'] = true
    ∧ resolveImportName (.gtable []) [] ['.', '/', 'f'] ['x'] =
        .error (.illegalBase ['.', '/', 'f']) :=
  ⟨by decide, c8_illegal_base _ _ _ _ (Or.inl (by decide))⟩

/-- Claim C10: an import that starts with none of `/`, `./`, `../` — the
strings `"."` and `".."` included — is routed to the global-name branch
rather than resolved relatively, and with an empty global table the import
`".."` fails with the unknown-global-name error instead of ascending. -/
theorem c10_bare_names :
    (∀ (gn : GlobalNames) (cache : JSCache) (base imp : Str),
        isLegalNormalizedName base = true →
        jsStartsWith imp ['/'] = false →
        jsStartsWith imp ['.', '/'] = false →
        jsStartsWith imp ['.', '.', '/'] = false →
        resolveImportName gn cache base imp = resolveGlobalName gn cache imp)
    ∧ (jsStartsWith ['.'] ['/'] = false ∧ jsStartsWith ['.'] ['.', '/'] = false
        ∧ jsStartsWith ['.'] ['.', '.', '/'] = false)
    ∧ (jsStartsWith ['.', '.'] ['/'] = false ∧ jsStartsWith ['.', '.'] ['.', '/'] = false
        ∧ jsStartsWith ['.', '.'] ['.', '.', '/'] = false)
    ∧ (∀ (cache : JSCache) (base : Str), isLegalNormalizedName base = true →
        resolveImportName (.gtable []) cache base ['.', '.'] =
          .error (.unknownGlobalName ['.', '.'])) := by
  refine ⟨resolve_bare, by decide, by decide, ?_⟩
  intro cache base hb
  rw [resolve_bare _ _ _ _ hb (by decide) (by decide) (by decide)]
  rfl

/-- Witness for C10 at the legal base `"b"` and the import `".."`. -/
theorem c10_bare_names_witness :
    isLegalNormalizedName ['b'] = true
    ∧ resolveImportName (.gtable []) [] ['b'] ['.', '.'] =
        .error (.unknownGlobalName ['.', '.']) :=
  ⟨by decide, c10_bare_names.2.2.2 [] ['b'] (by decide)⟩

/-- Claim C9 as stated is false: the pre-seeding guard is the truthiness test
`!moduleCache[importName]`, not a key-presence test, so a bare name that is
already cached with a falsy value (here `null`) is overwritten. -/
theorem c9_counterexample :
    cacheHas [(['g'], JSVal.vnull)] ['g'] = true
    ∧ resolveImportName (.gtable [(['g'], .vobj 1)]) [(['g'], .vnull)] ['b'] ['g'] =
        .ok (['g'], [(['g'], .vobj 1)])
    ∧ ([(['g'], JSVal.vobj 1)] : JSCache) ≠ [(['g'], JSVal.vnull)] :=
  ⟨by decide, rfl, by decide⟩

/-- Claim C9, amended: for a legal base and a bare import, the behavior is
by case on the looked-up value — an object-typed value (object or `null`) is
returned as the bare name and stored in the cache under the bare name, but
only when the cache holds no truthy value for that name (the guard is a
truthiness test, so absent or falsy entries alike are overwritten); a string
is returned as the canonical identifier; `undefined` (absent entry) raises
the unknown-global-name error; any other shape raises the illegal-mapping
error.  A function table is called with the bare name to obtain the value. -/
theorem c9_amended (gn : GlobalNames) (cache : JSCache) (base imp : Str)
    (hbase : isLegalNormalizedName base = true)
    (h1 : jsStartsWith imp ['/'] = false)
    (h2 : jsStartsWith imp ['.', '/'] = false)
    (h3 : jsStartsWith imp ['.', '.', '/'] = false) :
    (∀ i, lookupGlobal gn imp = .vobj i →
        resolveImportName gn cache base imp =
          .ok (imp, if (cacheGet cache imp).truthy then cache
                    else cacheSet cache imp (.vobj i)))
    ∧ (lookupGlobal gn imp = .vnull →
        resolveImportName gn cache base imp =
          .ok (imp, if (cacheGet cache imp).truthy then cache
                    else cacheSet cache imp .vnull))
    ∧ (∀ s, lookupGlobal gn imp = .vstr s →
        resolveImportName gn cache base imp = .ok (s, cache))
    ∧ (lookupGlobal gn imp = .vundefined →
        resolveImportName gn cache base imp = .error (.unknownGlobalName imp))
    ∧ (∀ b, lookupGlobal gn imp = .vbool b →
        resolveImportName gn cache base imp = .error (.illegalMapping (.vbool b)))
    ∧ (∀ n, lookupGlobal gn imp = .vnum n →
        resolveImportName gn cache base imp = .error (.illegalMapping (.vnum n)))
    ∧ (∀ f : Str → JSVal, lookupGlobal (.gfunc f) imp = f imp) := by
  have hbare := resolve_bare gn cache base imp hbase h1 h2 h3
  refine ⟨?_, ?_, ?_, ?_, ?_, ?_, fun f => rfl⟩
  · intro i h
    rw [hbare]
    unfold resolveGlobalName
    rw [h]
    cases htr : (cacheGet cache imp).truthy <;> simp [htr]
  · intro h
    rw [hbare]
    unfold resolveGlobalName
    rw [h]
    cases htr : (cacheGet cache imp).truthy <;> simp [htr]
  · intro s h
    rw [hbare]
    unfold resolveGlobalName
    rw [h]
  · intro h
    rw [hbare]
    unfold resolveGlobalName
    rw [h]
  · intro b h
    rw [hbare]
    unfold resolveGlobalName
    rw [h]
  · intro n h
    rw [hbare]
    unfold resolveGlobalName
    rw [h]

/-- Spec-side description of "one or more `..` segments joined by `/`":
the tail after the first `..`, i.e. `n` repetitions of `/..`. -/
def ascentChainTail : Nat → Str
  | 0 => []
  | n + 1 => '/' :: '.' :: '.' :: ascentChainTail n

/-- Spec-side pure-ascent string with `n + 1` segments: `..`, `../..`, ... -/
def ascentChain (n : Nat) : Str := '.' :: '.' :: ascentChainTail n

/-- Spec-side predicate: the string consists solely of one or more `..`
segments joined by `/`. -/
def PureAscentSpec (s : Str) : Prop := ∃ n, s = ascentChain n

lemma ascentTail_chain (n : Nat) : ascentTail (ascentChainTail n) = true := by
  induction n with
  | zero => rfl
  | succ n ih => simp [ascentChainTail, ascentTail, ih]

lemma ascentTail_to_chain : ∀ k (t : Str), t.length ≤ k → ascentTail t = true →
    ∃ n, t = ascentChainTail n := by
  intro k
  induction k with
  | zero =>
    intro t hl _
    have : t = [] := List.eq_nil_of_length_eq_zero (Nat.le_zero.mp hl)
    exact ⟨0, this⟩
  | succ k ih =>
    intro t hl h
    match t with
    | [] => exact ⟨0, rfl⟩
    | [c] => simp [ascentTail] at h
    | [c1, c2] => simp [ascentTail] at h
    | c1 :: c2 :: c3 :: rest =>
      simp only [ascentTail, Bool.and_eq_true, beq_iff_eq] at h
      obtain ⟨⟨⟨h1, h2⟩, h3⟩, h4⟩ := h
      have hrl : rest.length ≤ k := by
        simp only [List.length_cons] at hl
        omega
      obtain ⟨n, hn⟩ := ih rest hrl h4
      exact ⟨n + 1, by simp [ascentChainTail, h1, h2, h3, hn]⟩

lemma ascentTail_iff (t : Str) : ascentTail t = true ↔ ∃ n, t = ascentChainTail n := by
  constructor
  · exact ascentTail_to_chain t.length t le_rfl
  · rintro ⟨n, rfl⟩
    exact ascentTail_chain n

lemma isPureAscent_iff (s : Str) : isPureAscent s = true ↔ PureAscentSpec s := by
  constructor
  · intro h
    match s with
    | [] => simp [isPureAscent] at h
    | [c] => simp [isPureAscent] at h
    | c1 :: c2 :: rest =>
      simp only [isPureAscent, Bool.and_eq_true, beq_iff_eq] at h
      obtain ⟨⟨h1, h2⟩, h3⟩ := h
      obtain ⟨n, hn⟩ := (ascentTail_iff rest).mp h3
      exact ⟨n, by simp [ascentChain, h1, h2, hn]⟩
  · rintro ⟨n, rfl⟩
    simp [ascentChain, isPureAscent, ascentTail_chain n]

lemma lastIndexOfChar_eq_none (c : Char) (s : Str) :
    lastIndexOfChar c s = none ↔ c ∉ s := by
  induction s with
  | nil => simp [lastIndexOfChar]
  | cons x xs ih =>
    cases h : lastIndexOfChar c xs with
    | some i =>
      have hmem : c ∈ xs := by
        by_contra hc
        rw [ih.mpr hc] at h
        cases h
      simp [lastIndexOfChar, h, hmem]
    | none =>
      have hnotm : c ∉ xs := ih.mp h
      by_cases hx : x = c
      · subst hx
        simp [lastIndexOfChar, h]
      · have hcx : ¬c = x := fun hcx => hx hcx.symm
        simp [lastIndexOfChar, h, hx, hnotm, hcx]

lemma lastIndexOfChar_append (c : Char) (t u : Str) (hu : c ∉ u) :
    lastIndexOfChar c (t ++ c :: u) = some t.length := by
  induction t with
  | nil =>
    simp [lastIndexOfChar, (lastIndexOfChar_eq_none c u).mpr hu]
  | cons x xs ih =>
    simp [lastIndexOfChar, ih]

lemma goToParentDir_slice (t u : Str) (hu : ('/' : Char) ∉ u)
    (hne : isPureAscent (t ++ '/' :: u) = false) :
    goToParentDir (t ++ '/' :: u) = t := by
  have hx : (t ++ '/' :: u) ≠ [] := by simp
  unfold goToParentDir
  rw [if_neg hx, if_neg (by simp [hne]), lastIndexOfChar_append _ _ _ hu]
  exact List.take_left t ('/' :: u)

/-- Claim C3: the directory-ascent function `_goToParentDir` satisfies
`ascend("") = ".."`; a pure-ascent input (one or more `..` segments joined by
`/`) gets another `../` prepended; any other input loses its last
`/`-delimited segment, collapsing to the empty string when it has no `/`. -/
theorem c3_goToParentDir (s : Str) :
    goToParentDir [] = ['.', '.']
    ∧ (PureAscentSpec s → goToParentDir s = '.' :: '.' :: '/' :: s)
    ∧ (s ≠ [] → ¬ PureAscentSpec s →
        ((('/' : Char) ∉ s → goToParentDir s = [])
          ∧ (∀ t u, s = t ++ '/' :: u → ('/' : Char) ∉ u → goToParentDir s = t))) := by
  refine ⟨rfl, ?_, ?_⟩
  · intro hp
    have hb : isPureAscent s = true := (isPureAscent_iff s).mpr hp
    have hne : s ≠ [] := by
      obtain ⟨n, rfl⟩ := hp
      simp [ascentChain]
    unfold goToParentDir
    rw [if_neg hne, if_pos (by simp [hb])]
  · intro hne hnp
    have hb : isPureAscent s = false := by
      cases h : isPureAscent s
      · rfl
      · exact absurd ((isPureAscent_iff s).mp h) hnp
    constructor
    · intro hsl
      unfold goToParentDir
      rw [if_neg hne, if_neg (by simp [hb]), (lastIndexOfChar_eq_none _ _).mpr hsl]
    · intro t u hsu hu
      rw [hsu]
      exact goToParentDir_slice t u hu (hsu ▸ hb)

/-- Witness for C3: ascending from the pure-ascent `"../.."` prepends
another `../`, and ascending from the file path `"a/b"` drops the last
segment. -/
theorem c3_goToParentDir_witness :
    (PureAscentSpec ['.', '.', '/', '.', '.']
      ∧ goToParentDir ['.', '.', '/', '.', '.'] = ['.', '.', '/', '.', '.', '/', '.', '.'])
    ∧ goToParentDir ['a', '/', 'b'] = ['a'] :=
  ⟨⟨⟨1, rfl⟩, (c3_goToParentDir _).2.1 ⟨1, rfl⟩⟩,
    (c3_goToParentDir ['a', '/', 'b']).2.2 (by decide)
      (fun hp => absurd ((isPureAscent_iff _).mpr hp) (by decide)) |>.2
      ['a'] ['b'] rfl (by decide)⟩

lemma startsWith_iff (s p : Str) : jsStartsWith s p = true ↔ ∃ t, s = p ++ t := by
  unfold jsStartsWith
  rw [List.isPrefixOf_iff_prefix]
  constructor
  · rintro ⟨t, rfl⟩
    exact ⟨t, rfl⟩
  · rintro ⟨t, rfl⟩
    exact ⟨t, rfl⟩

lemma endsWith_iff (s p : Str) : jsEndsWith s p = true ↔ ∃ t, s = t ++ p := by
  unfold jsEndsWith
  rw [List.isSuffixOf_iff_suffix]
  constructor
  · rintro ⟨t, rfl⟩
    exact ⟨t, rfl⟩
  · rintro ⟨t, rfl⟩
    exact ⟨t, rfl⟩

lemma lastIndexOfChar_some (c : Char) : ∀ (s : Str) (i : Nat),
    lastIndexOfChar c s = some i → ∃ t u, s = t ++ c :: u ∧ t.length = i ∧ c ∉ u := by
  intro s
  induction s with
  | nil => intro i h; cases h
  | cons x xs ih =>
    intro i h
    simp only [lastIndexOfChar] at h
    cases h2 : lastIndexOfChar c xs with
    | some j =>
      rw [h2] at h
      obtain ⟨t, u, h3, h4, h5⟩ := ih j h2
      injection h with h6
      exact ⟨x :: t, u, by simp [h3], by simp [h4, h6], h5⟩
    | none =>
      rw [h2] at h
      by_cases hxc : x = c
      · rw [if_pos hxc] at h
        injection h with h6
        exact ⟨[], xs, by simp [hxc], by simp [h6], (lastIndexOfChar_eq_none c xs).mp h2⟩
      · rw [if_neg hxc] at h
        cases h

/-- Evaluation of `_goToParentDir` in its pure-ascent branch. -/
lemma goToParentDir_eq_ascent (x : Str) (hnil : x ≠ []) (hpa : isPureAscent x = true) :
    goToParentDir x = '.' :: '.' :: '/' :: x := by
  unfold goToParentDir
  rw [if_neg hnil, if_pos (by simp [hpa])]

/-- Evaluation of `_goToParentDir` in its slash-free branch. -/
lemma goToParentDir_eq_nil (x : Str) (hnil : x ≠ []) (hpa : isPureAscent x = false)
    (hli : lastIndexOfChar '/' x = none) : goToParentDir x = [] := by
  unfold goToParentDir
  rw [if_neg hnil, if_neg (by simp [hpa]), hli]

/-- Evaluation of `_goToParentDir` in its slice branch. -/
lemma goToParentDir_eq_take (x : Str) (i : Nat) (hnil : x ≠ []) (hpa : isPureAscent x = false)
    (hli : lastIndexOfChar '/' x = some i) : goToParentDir x = x.take i := by
  unfold goToParentDir
  rw [if_neg hnil, if_neg (by simp [hpa]), hli]

/-- The bases produced inside the relative-resolution branch: they never
start with `./` and are never the one-character string `.`, so that joining
them with `/` cannot create a `./` prefix. -/
def GoodBase (s : Str) : Prop := (∀ t, s ≠ '.' :: '/' :: t) ∧ s ≠ ['.']

lemma goodBase_goToParentDir (x : Str) (hx : ∀ t, x ≠ '.' :: '/' :: t) :
    GoodBase (goToParentDir x) := by
  by_cases hnil : x = []
  · subst hnil
    exact ⟨fun t h => by simp [goToParentDir] at h, by simp [goToParentDir]⟩
  · by_cases hpa : isPureAscent x = true
    · rw [goToParentDir_eq_ascent x hnil hpa]
      exact ⟨fun t h => by simp at h, by simp⟩
    · rw [Bool.not_eq_true] at hpa
      cases hli : lastIndexOfChar '/' x with
      | none =>
        rw [goToParentDir_eq_nil x hnil hpa hli]
        exact ⟨fun t h => by simp at h, by simp⟩
      | some i =>
        obtain ⟨t, u, hxe, hlen, hu⟩ := lastIndexOfChar_some '/' x i hli
        have htake : goToParentDir x = t := by
          rw [goToParentDir_eq_take x i hnil hpa hli, hxe, ← hlen, List.take_left]
        rw [htake]
        constructor
        · intro t' ht'
          exact hx (t' ++ '/' :: u) (by rw [hxe, ht']; simp)
        · intro ht'
          exact hx u (by rw [hxe, ht']; simp)

lemma goodBase_ascendLoop : ∀ (base imp : Str), GoodBase base →
    GoodBase (ascendLoop base imp).1 := by
  intro base imp
  induction base, imp using ascendLoop.induct with
  | case1 base rest ih =>
    intro hg
    exact ih (goodBase_goToParentDir base hg.1)
  | case2 base imp hne =>
    intro hg
    have hstep : ascendLoop base imp = (base, imp) := by
      unfold ascendLoop
      split
      · exact (hne _ rfl).elim
      · rfl
    rw [hstep]
    exact hg

lemma endsWith_slash_append (b r : Str) (hr : r ≠ []) :
    jsEndsWith (b ++ '/' :: r) ['/'] = jsEndsWith r ['/'] := by
  rcases hrev : r.reverse with _ | ⟨c, r2⟩
  · exact absurd (by simpa using congrArg List.reverse hrev) hr
  · unfold jsEndsWith List.isSuffixOf
    simp [List.reverse_append, hrev, List.isPrefixOf]

lemma startsWith_dotslash_append (b r : Str) (hbne : b ≠ []) (hgb : GoodBase b) :
    jsStartsWith (b ++ '/' :: r) ['.', '/'] = false := by
  rcases b with _ | ⟨c1, b1⟩
  · exact absurd rfl hbne
  rcases b1 with _ | ⟨c2, b2⟩
  · have hc1 : ¬('.' = c1) := fun h => hgb.2 (by rw [← h])
    simp [jsStartsWith, List.isPrefixOf, hc1]
  · by_cases h1 : c1 = '.'
    · by_cases h2 : c2 = '/'
      · exact absurd (by rw [h1, h2]) (hgb.1 b2)
      · simp [jsStartsWith, List.isPrefixOf]
        intro _
        exact fun hh => h2 hh.symm
    · simp [jsStartsWith, List.isPrefixOf]
      intro h
      exact absurd h.symm h1

/-- The two invariant conclusions for a `_descend` result, given a good base
and a well-formed remainder. -/
lemma descend_conclusions (b r : Str) (hgb : GoodBase b) (hne : r ≠ [])
    (hpre : jsStartsWith r ['.', '/'] = false) (hsuf : jsEndsWith r ['/'] = false) :
    jsStartsWith (descend b r) ['.', '/'] = false
    ∧ jsEndsWith (descend b r) ['/'] = false := by
  unfold descend
  by_cases hb : b.length = 0
  · rw [if_pos hb]
    exact ⟨hpre, hsuf⟩
  · rw [if_neg hb]
    have hbne : b ≠ [] := fun h => hb (by rw [h]; rfl)
    refine ⟨startsWith_dotslash_append b r hbne hgb, ?_⟩
    rw [endsWith_slash_append b r hne]
    exact hsuf

/-- Claim C7 as stated is false: the resolver validates only the base, never
its own output, so absolute imports, string substitutions from the global
table, and relative imports with a degenerate remainder all escape with a
leading `./` or a trailing `/`. -/
theorem c7_counterexample :
    (resolveImportName (.gtable []) [] ['b'] ['/', 'x', '/'] = .ok (['/', 'x', '/'], [])
      ∧ jsEndsWith ['/', 'x', '/'] ['/'] = true)
    ∧ (resolveImportName (.gtable [(['g'], .vstr ['.', '/', 'y'])]) [] ['b'] ['g'] =
        .ok (['.', '/', 'y'], [])
      ∧ jsStartsWith ['.', '/', 'y'] ['.', '/'] = true)
    ∧ (resolveImportName (.gtable []) [] ['a'] ['.', '/', '.', '/', 'x'] =
        .ok (['.', '/', 'x'], [])
      ∧ jsStartsWith ['.', '/', 'x'] ['.', '/'] = true)
    ∧ (resolveImportName (.gtable []) [] ['a', '/', 'b'] ['.', '/'] = .ok (['a', '/'], [])
      ∧ jsEndsWith ['a', '/'] ['/'] = true) :=
  ⟨⟨rfl, by decide⟩, ⟨rfl, by decide⟩, ⟨rfl, by decide⟩, ⟨rfl, by decide⟩⟩

/-- Claim C7, amended: the invariant holds for the relative-resolution
branch.  For a legal base and an import starting with `./` or `../`, if the
remainder left after stripping the `./` prefix (respectively all leading
`../` segments) is nonempty, does not itself start with `./` and does not
end with `/`, then the resolved name neither starts with `./` nor ends with
`/`.  Absolute imports, global-table string substitutions and bare names
returned as themselves are excluded: they are passed through unchecked. -/
theorem c7_amended (gn : GlobalNames) (cache : JSCache) (base imp r : Str)
    (hbase : isLegalNormalizedName base = true)
    (hcase : (jsStartsWith imp ['.', '/'] = true ∧ r = removePrefixMaybe ['.', '/'] imp)
        ∨ (jsStartsWith imp ['.', '.', '/'] = true
            ∧ r = (ascendLoop (goToParentDir base) imp).2))
    (hne : r ≠ []) (hpre : jsStartsWith r ['.', '/'] = false)
    (hsuf : jsEndsWith r ['/'] = false) :
    ∃ res, resolveImportName gn cache base imp = .ok (res, cache)
      ∧ jsStartsWith res ['.', '/'] = false ∧ jsEndsWith res ['/'] = false := by
  have hb0 : jsStartsWith base ['.', '/'] = false := by
    unfold isLegalNormalizedName at hbase
    simp only [Bool.and_eq_true, Bool.not_eq_true'] at hbase
    exact hbase.2
  have hgb0 : ∀ t, base ≠ '.' :: '/' :: t := by
    intro t ht
    rw [ht] at hb0
    simp [jsStartsWith, List.isPrefixOf] at hb0
  rcases hcase with ⟨hrel, hr⟩ | ⟨hasc, hr⟩
  · obtain ⟨t0, ht0⟩ := (startsWith_iff imp ['.', '/']).mp hrel
    have habs : jsStartsWith imp ['/'] = false := by
      rw [ht0]
      simp [jsStartsWith, List.isPrefixOf]
    have hres : resolveImportName gn cache base imp =
        .ok (descend (goToParentDir base) (removePrefixMaybe ['.', '/'] imp), cache) := by
      unfold resolveImportName
      simp [hbase, habs, hrel]
    have hgb1 : GoodBase (goToParentDir base) := goodBase_goToParentDir base hgb0
    obtain ⟨hc1, hc2⟩ :=
      descend_conclusions (goToParentDir base) r hgb1 hne hpre hsuf
    rw [hr] at hc1 hc2
    exact ⟨_, hres, hc1, hc2⟩
  · obtain ⟨t0, ht0⟩ := (startsWith_iff imp ['.', '.', '/']).mp hasc
    have habs : jsStartsWith imp ['/'] = false := by
      rw [ht0]
      simp [jsStartsWith, List.isPrefixOf]
    have hnotdot : jsStartsWith imp ['.', '/'] = false := by
      rw [ht0]
      simp [jsStartsWith, List.isPrefixOf]
    have hres : resolveImportName gn cache base imp =
        .ok (descend (ascendLoop (goToParentDir base) imp).1
              (ascendLoop (goToParentDir base) imp).2, cache) := by
      unfold resolveImportName
      simp [hbase, habs, hasc, hnotdot]
    have hgb1 : GoodBase (ascendLoop (goToParentDir base) imp).1 :=
      goodBase_ascendLoop _ _ (goodBase_goToParentDir base hgb0)
    obtain ⟨hc1, hc2⟩ :=
      descend_conclusions (ascendLoop (goToParentDir base) imp).1 r hgb1 hne hpre hsuf
    rw [hr] at hc1 hc2
    exact ⟨_, hres, hc1, hc2⟩

/-- Witness for the amended C7 at base `"a/b"` and import `"../x"`. -/
theorem c7_amended_witness :
    isLegalNormalizedName ['a', '/', 'b'] = true
    ∧ ∃ res, resolveImportName (.gtable []) [] ['a', '/', 'b'] ['.', '.', '/', 'x'] =
        .ok (res, []) ∧ jsStartsWith res ['.', '/'] = false ∧ jsEndsWith res ['/'] = false :=
  ⟨by decide,
    c7_amended (.gtable []) [] ['a', '/', 'b'] ['.', '.', '/', 'x'] ['x']
      (by decide) (Or.inr ⟨by decide, by decide⟩) (by decide) (by decide) (by decide)⟩

/-- Witness for C9 at a table mapping `"g"` to the path string `"p"`. -/
theorem c9_amended_witness :
    isLegalNormalizedName ['b'] = true
    ∧ resolveImportName (.gtable [(['g'], .vstr ['p'])]) [] ['b'] ['g'] = .ok (['p'], []) :=
  ⟨by decide,
    (c9_amended (.gtable [(['g'], .vstr ['p'])]) [] ['b'] ['g']
        (by decide) (by decide) (by decide) (by decide)).2.2.1 ['p'] (by decide)⟩

/-!
The loader (`loadModules` / `loadModule`, src/lobrow.js lines 53-119).

Module values are opaque; they are modelled as natural numbers.  The two
external collaborators are abstracted at their interface boundary: fetching
plus `evaluateRawModuleSource`/`runEvaluatedBody` are summarised by a `World`
that gives, for every identifier, the list of (already resolved) direct
dependency identifiers extracted from its source and the exports value its
body produces.
-/

/-- What the external collaborators contribute for one module: its resolved
direct dependency identifiers and its exports value. -/
structure MDef where
  deps : List Str
  val : Nat

/-- The module universe backing the fetch/evaluate collaborators. -/
abbrev World := Str → MDef

/-- The fork-join bookkeeping of `loadModules` (lines 60-80) in isolation.
`moduleCount` and `modules` are the closure variables; `calls` logs every
invocation of the continuation, with the `modules` array it was handed.
The sparse JavaScript array is a pre-sized list of `Option`s. -/
structure FJSt where
  moduleCount : Nat
  modules : List (Option Nat)
  calls : List (List (Option Nat))
deriving DecidableEq

/-- One completion event: the callback of fork `i` reports value `v`,
running `modules[i] = v; moduleCount++;` and invoking the continuation when
`moduleCount >= normalizedNames.length`. -/
def fjStep (n : Nat) (st : FJSt) (ev : Nat × Nat) : FJSt :=
  let modules1 := st.modules.set ev.1 (some ev.2)
  let cnt1 := st.moduleCount + 1
  { moduleCount := cnt1
    modules := modules1
    calls := if n ≤ cnt1 then st.calls ++ [modules1] else st.calls }

/-- Initial join state for `n` forks. -/
def fjInit (n : Nat) : FJSt := ⟨0, List.replicate n none, []⟩

/-- `loadModules names callback` under a given sequence of fork-completion
events: the empty request list invokes the continuation immediately with the
empty array, otherwise the events drive the join bookkeeping. -/
def loadModulesFJ (names : List Str) (evts : List (Nat × Nat)) : FJSt :=
  if names.length = 0 then ⟨0, [], [[]]⟩
  else evts.foldl (fjStep names.length) (fjInit names.length)

/-- A `loadModule` callback created by a `loadModules` fork: it reports into
slot `slot` of join number `join`. -/
structure ContK where
  join : Nat
  slot : Nat
deriving DecidableEq

/-- What a completed join triggers: either it was a top-level `require`
continuation (`root`, tagged by a requester id), or it was the dependency
join inside `runEvaluatedModule` for module `name`, whose completion runs
the body, caches the result and reports to the module's own requester
callback `k` (lines 103-107 and 131-138). -/
inductive Parent where
  | root : Nat → Parent
  | completeMod : Str → ContK → Parent
deriving DecidableEq

/-- A live join: fork count, completions so far, the `modules` array and the
parent continuation. -/
structure JoinSt where
  total : Nat
  cnt : Nat
  vals : List (Option Nat)
  par : Parent
deriving DecidableEq

/-- Loader state: `cache` is `moduleCache`, `loading` is `currentlyLoading`,
`pending` the issued-but-unanswered fetches with their callbacks, `joins`
the live join objects, `fetches` a log of every fetch ever issued, and
`delivered` a log of every top-level continuation invocation. -/
structure LS where
  cache : List (Str × Nat)
  loading : List Str
  pending : List (Str × ContK)
  joins : List JoinSt
  fetches : List Str
  delivered : List (Nat × List (Option Nat))
deriving DecidableEq

/-- Errors thrown by the loader: the cycle error of line 92, plus a fuel
marker for the bounded interpreter (never reached in the runs below). -/
inductive LErr where
  | cycle : Str → LErr
  | fuelOut : LErr
deriving DecidableEq

/-- `moduleCache[k] = v` for the loader cache. -/
def lcacheSet (cache : List (Str × Nat)) (k : Str) (v : Nat) : List (Str × Nat) :=
  match cache with
  | [] => [(k, v)]
  | (k0, v0) :: rest => if k0 = k then (k, v) :: rest else (k0, v0) :: lcacheSet rest k v

/-- The synchronous continuation work after a value is produced: `rep`
delivers a value to a fork callback; `fire` runs a completed join's parent
(either delivering to the top-level continuation or completing a module:
`delete currentlyLoading[name]; moduleCache[name] = result; callback(result)`). -/
inductive Task where
  | rep : ContK → Nat → Task
  | fire : Parent → List (Option Nat) → Task

/-- `modules[slot] = some v; moduleCount++` on a join. -/
def applyJoin (js : JoinSt) (slot v : Nat) : JoinSt :=
  { js with vals := js.vals.set slot (some v), cnt := js.cnt + 1 }

/-- Run one synchronous continuation chain.  The fuel only bounds the length
of the upward completion chain; exhaustion is flagged, never silently
absorbed. -/
def runTask (w : World) : Nat → LS → Task → LS × Option LErr
  | 0, st, _ => (st, some .fuelOut)
  | fuel + 1, st, .rep k v =>
    match st.joins.get? k.join with
    | none => (st, some .fuelOut)
    | some js =>
      let js1 := applyJoin js k.slot v
      let st1 := { st with joins := st.joins.set k.join js1 }
      if js1.total ≤ js1.cnt then runTask w fuel st1 (.fire js1.par js1.vals)
      else (st1, none)
  | _fuel + 1, st, .fire (.root rid) vals =>
    ({ st with delivered := st.delivered ++ [(rid, vals)] }, none)
  | _fuel + 1, st, .fire (.completeMod name k) _ =>
    let v := (w name).val
    let st1 := { st with loading := st.loading.erase name,
                         cache := lcacheSet st.cache name v }
    runTask w _fuel st1 (.rep k v)

/-- `loadModule` (lines 85-119): a cached identifier reports its cached
value synchronously; an in-flight identifier throws the cycle error; a fresh
identifier is marked in-flight and its fetch is issued (the response arrives
later as a `respond` event). -/
def loadModuleM (w : World) (fuel : Nat) (st : LS) (name : Str) (k : ContK) :
    LS × Option LErr :=
  match st.cache.lookup name with
  | some v => runTask w fuel st (.rep k v)
  | none =>
    if name ∈ st.loading then (st, some (.cycle name))
    else
      ({ st with loading := name :: st.loading,
                 fetches := st.fetches ++ [name],
                 pending := st.pending ++ [(name, k)] }, none)

/-- The `normalizedNames.forEach` fork loop of `loadModules`: a thrown
exception aborts the remaining iterations. -/
def loopForks (w : World) (fuel : Nat) : LS → List Str → Nat → Nat → LS × Option LErr
  | st, [], _, _ => (st, none)
  | st, nm :: rest, j, i =>
    match loadModuleM w fuel st nm ⟨j, i⟩ with
    | (st1, none) => loopForks w fuel st1 rest j (i + 1)
    | (st1, some e) => (st1, some e)

/-- `loadModules` (lines 60-80): empty request list fires the continuation
immediately with `[]`, otherwise a fresh join is allocated and the forks
are started in order. -/
def loadModulesM (w : World) (fuel : Nat) (st : LS) (names : List Str) (par : Parent) :
    LS × Option LErr :=
  if names.isEmpty then runTask w fuel st (.fire par [])
  else
    let st1 := { st with joins := st.joins ++
        [⟨names.length, 0, List.replicate names.length none, par⟩] }
    loopForks w fuel st1 names st.joins.length 0

/-- External events of one loader session: a top-level `require` with a
requester id, or the arrival of the fetch response for an identifier. -/
inductive Ev where
  | require : Nat → List Str → Ev
  | respond : Str → Ev

/-- Select and remove the pending fetch for `name` (first match). -/
def findPending : List (Str × ContK) → Str → Option (ContK × List (Str × ContK))
  | [], _ => none
  | (n, k) :: rest, name =>
    if n = name then some (k, rest)
    else
      match findPending rest name with
      | some (k1, rest1) => some (k1, (n, k) :: rest1)
      | none => none

/-- One event-loop turn.  A `respond` runs the `onreadystatechange` handler:
extract-and-resolve the dependencies of the arrived module (given by the
world) and load them, completing the module when they are all there.  A
response with no matching pending fetch is ignored. -/
def stepEv (w : World) (fuel : Nat) (st : LS) : Ev → LS × Option LErr
  | .require rid names => loadModulesM w fuel st names (.root rid)
  | .respond name =>
    match findPending st.pending name with
    | none => (st, none)
    | some (k, pending1) =>
      loadModulesM w fuel { st with pending := pending1 } (w name).deps
        (.completeMod name k)

/-- Run a sequence of events, collecting the errors that escape each turn
(an uncaught exception kills its turn but not the event loop). -/
def runEvs (w : World) (fuel : Nat) : LS → List Ev → LS × List LErr
  | st, [] => (st, [])
  | st, e :: rest =>
    let r := stepEv w fuel st e
    let r2 := runEvs w fuel r.1 rest
    (r2.1, (match r.2 with | some err => [err] | none => []) ++ r2.2)

/-- The fresh loader state of a session. -/
def st0 : LS := ⟨[], [], [], [], [], []⟩

/-- The loader invariant behind cycle handling: `currentlyLoading` has no
duplicates and an in-flight identifier is never cached. -/
def Inv (st : LS) : Prop :=
  st.loading.Nodup ∧ ∀ n ∈ st.loading, st.cache.lookup n = none

/-- Concrete identifiers for the scenario runs. -/
def nmA : Str := ['a']

/-- Concrete identifier `b`. -/
def nmB : Str := ['b']

/-- Concrete identifier `m`. -/
def nmM : Str := ['m']

/-- A world with a two-module cycle: `a` requires `b`, `b` requires `a`. -/
def wCyc : World := fun n =>
  if n = nmA then ⟨[nmB], 1⟩ else if n = nmB then ⟨[nmA], 2⟩ else ⟨[], 0⟩

/-- A world with a single dependency-free module `m` of value `7`. -/
def wM : World := fun n => if n = nmM then ⟨[], 7⟩ else ⟨[], 0⟩

lemma fj_foldl_count (n : Nat) : ∀ (evts : List (Nat × Nat)) (st : FJSt),
    (evts.foldl (fjStep n) st).moduleCount = st.moduleCount + evts.length := by
  intro evts
  induction evts with
  | nil => intro st; simp
  | cons e es ih =>
    intro st
    rw [List.foldl_cons, ih]
    simp [fjStep]
    omega

lemma fj_foldl_calls_nil (n : Nat) : ∀ (evts : List (Nat × Nat)) (st : FJSt),
    st.calls = [] → st.moduleCount + evts.length < n →
    (evts.foldl (fjStep n) st).calls = [] := by
  intro evts
  induction evts with
  | nil => intro st h _; simpa using h
  | cons e es ih =>
    intro st hc hlt
    simp only [List.length_cons] at hlt
    rw [List.foldl_cons]
    have hnle : ¬ n ≤ st.moduleCount + 1 := by omega
    apply ih
    · simp [fjStep, hnle, hc]
    · simp only [fjStep]
      omega

lemma fj_foldl_modules (n : Nat) (v : Nat → Nat) : ∀ (evts : List (Nat × Nat)) (st : FJSt),
    (∀ p ∈ evts, p.2 = v p.1) → (∀ p ∈ evts, p.1 < st.modules.length) →
    (evts.map Prod.fst).Nodup →
    ∀ j, ((evts.foldl (fjStep n) st).modules)[j]? =
      if j ∈ evts.map Prod.fst then some (some (v j)) else st.modules[j]? := by
  intro evts
  induction evts with
  | nil => intro st _ _ _ j; simp
  | cons e es ih =>
    intro st hv hlt hnd j
    rw [List.foldl_cons]
    simp only [List.map_cons, List.nodup_cons] at hnd
    obtain ⟨hnotin, hnd1⟩ := hnd
    have hv1 : ∀ p ∈ es, p.2 = v p.1 := fun p hp => hv p (List.mem_cons_of_mem e hp)
    have hlt1 : ∀ p ∈ es, p.1 < (fjStep n st e).modules.length := by
      intro p hp
      have := hlt p (List.mem_cons_of_mem e hp)
      simpa [fjStep, List.length_set] using this
    rw [ih (fjStep n st e) hv1 hlt1 hnd1 j]
    by_cases hje : j ∈ es.map Prod.fst
    · simp [List.mem_cons, hje]
    · rw [if_neg hje]
      by_cases hjw : j = e.1
      · subst hjw
        have hlen : e.1 < st.modules.length := hlt e (List.mem_cons_self e es)
        have hve : e.2 = v e.1 := hv e (List.mem_cons_self e es)
        simp [fjStep, List.getElem?_set, hlen, hve, List.mem_cons]
      · have hne1 : ¬ e.1 = j := fun h => hjw h.symm
        simp [fjStep, List.getElem?_set, hne1, List.mem_cons, hjw, hje]

/-- Claim C6: for every request list and every completion order of its
forks (each fork reporting exactly once), the continuation of `loadModules`
is invoked exactly once, only after all forks have reported, and the
delivered array carries the values at the request positions, independent of
completion order; the empty request list invokes the continuation once with
the empty array. -/
theorem c6_fork_join (names : List Str) (v : Nat → Nat) (evts : List (Nat × Nat))
    (hperm : (evts.map Prod.fst).Perm (List.range names.length))
    (hv : ∀ p ∈ evts, p.2 = v p.1) :
    (loadModulesFJ names evts).calls
      = [(List.range names.length).map (fun i => some (v i))]
    ∧ ∀ k, k < evts.length → (loadModulesFJ names (evts.take k)).calls = [] := by
  by_cases hn0 : names.length = 0
  · have hev : evts = [] := by
      have hl := hperm.length_eq
      rw [hn0] at hl
      simp only [List.range_zero, List.length_nil, List.length_map] at hl
      exact List.eq_nil_of_length_eq_zero hl
    subst hev
    constructor
    · unfold loadModulesFJ
      rw [if_pos hn0, hn0]
      simp
    · intro k hk
      exact absurd hk (by simp)
  · have hlen : evts.length = names.length := by simpa using hperm.length_eq
    have hnodup : (evts.map Prod.fst).Nodup :=
      hperm.nodup_iff.mpr (List.nodup_range names.length)
    have hm : ∀ j, j ∈ evts.map Prod.fst ↔ j < names.length := by
      intro j
      rw [hperm.mem_iff, List.mem_range]
    have hltinit : ∀ p ∈ evts, p.1 < (fjInit names.length).modules.length := by
      intro p hp
      have hmem : p.1 ∈ evts.map Prod.fst := List.mem_map_of_mem Prod.fst hp
      rw [hm] at hmem
      simpa [fjInit] using hmem
    have hmod : (evts.foldl (fjStep names.length) (fjInit names.length)).modules
        = (List.range names.length).map (fun i => some (v i)) := by
      apply List.ext_getElem?
      intro j
      rw [fj_foldl_modules names.length v evts (fjInit names.length) hv hltinit hnodup j]
      by_cases hj : j < names.length
      · rw [if_pos ((hm j).mpr hj)]
        simp [hj]
      · have hnj : names.length ≤ j := Nat.le_of_not_lt hj
        rw [if_neg (fun hmem => hj ((hm j).mp hmem))]
        rw [List.getElem?_eq_none (by simpa [fjInit] using hnj),
          List.getElem?_eq_none (by simpa using hnj)]
    constructor
    · unfold loadModulesFJ
      rw [if_neg hn0]
      obtain h0 | ⟨es, e, hconcat⟩ := evts.eq_nil_or_concat
      · rw [h0] at hlen
        simp at hlen
        exact absurd hlen.symm hn0
      · have heslen : es.length + 1 = names.length := by
          rw [hconcat] at hlen
          simpa using hlen
        rw [hconcat, List.concat_eq_append, List.foldl_append]
        have hescalls : (es.foldl (fjStep names.length) (fjInit names.length)).calls = [] := by
          apply fj_foldl_calls_nil
          · rfl
          · simp only [fjInit]
            omega
        have hescount :
            (es.foldl (fjStep names.length) (fjInit names.length)).moduleCount = es.length := by
          rw [fj_foldl_count]
          simp [fjInit]
        have hfire : names.length ≤
            (es.foldl (fjStep names.length) (fjInit names.length)).moduleCount + 1 := by
          rw [hescount]
          omega
        simp only [List.foldl_cons, List.foldl_nil, fjStep]
        rw [if_pos hfire, hescalls]
        have hset : (es.foldl (fjStep names.length) (fjInit names.length)).modules.set e.1
            (some e.2) = (List.range names.length).map (fun i => some (v i)) := by
          have h2 := hmod
          rw [hconcat, List.concat_eq_append, List.foldl_append] at h2
          simpa [fjStep] using h2
        rw [hset]
        simp
    · intro k hk
      unfold loadModulesFJ
      rw [if_neg hn0]
      apply fj_foldl_calls_nil
      · rfl
      · simp only [fjInit, List.length_take]
        omega

/-- Witness for C6: two forks completing in reverse order still deliver in
request order, with one continuation invocation. -/
theorem c6_fork_join_witness :
    (loadModulesFJ [nmA, nmB] [(1, 5), (0, 9)]).calls = [[some 9, some 5]] :=
  ((c6_fork_join [nmA, nmB] (fun i => if i = 0 then 9 else 5) [(1, 5), (0, 9)]
    (by decide) (by decide)).1).trans (by decide)

lemma lookup_lcacheSet (cache : List (Str × Nat)) (k : Str) (v : Nat) (m : Str) :
    (lcacheSet cache k v).lookup m = if m = k then some v else cache.lookup m := by
  induction cache with
  | nil =>
    by_cases hmk : m = k
    · have hb : (m == k) = true := beq_iff_eq.mpr hmk
      simp [lcacheSet, List.lookup_cons, hb, hmk]
    · have hb : (m == k) = false := beq_eq_false_iff_ne.mpr hmk
      simp [lcacheSet, List.lookup_cons, hb, hmk]
  | cons p rest ih =>
    obtain ⟨k0, v0⟩ := p
    by_cases h0 : k0 = k
    · subst h0
      by_cases hmk : m = k0
      · have hb : (m == k0) = true := beq_iff_eq.mpr hmk
        simp [lcacheSet, List.lookup_cons, hb, hmk]
      · have hb : (m == k0) = false := beq_eq_false_iff_ne.mpr hmk
        simp [lcacheSet, List.lookup_cons, hb, hmk]
    · by_cases hmk : m = k0
      · have hq : ¬ m = k := fun h => h0 (by rw [← hmk]; exact h)
        have hb : (m == k0) = true := beq_iff_eq.mpr hmk
        simp [lcacheSet, h0, List.lookup_cons, hb, hq]
      · have hb : (m == k0) = false := beq_eq_false_iff_ne.mpr hmk
        simp [lcacheSet, h0, List.lookup_cons, hb, ih]

lemma runTask_rep_none (w : World) (fuel : Nat) (st : LS) (k : ContK) (v : Nat)
    (hj : st.joins.get? k.join = none) :
    runTask w (fuel + 1) st (.rep k v) = (st, some .fuelOut) := by
  simp only [runTask, hj]

lemma runTask_rep_some (w : World) (fuel : Nat) (st : LS) (k : ContK) (v : Nat)
    (js : JoinSt) (hj : st.joins.get? k.join = some js) :
    runTask w (fuel + 1) st (.rep k v) =
      (if (applyJoin js k.slot v).total ≤ (applyJoin js k.slot v).cnt then
        runTask w fuel { st with joins := st.joins.set k.join (applyJoin js k.slot v) }
          (.fire (applyJoin js k.slot v).par (applyJoin js k.slot v).vals)
      else ({ st with joins := st.joins.set k.join (applyJoin js k.slot v) }, none)) := by
  simp only [runTask, hj]

lemma runTask_fire_root (w : World) (fuel : Nat) (st : LS) (rid : Nat)
    (vals : List (Option Nat)) :
    runTask w (fuel + 1) st (.fire (.root rid) vals) =
      ({ st with delivered := st.delivered ++ [(rid, vals)] }, none) := rfl

lemma runTask_fire_complete (w : World) (fuel : Nat) (st : LS) (name : Str) (k : ContK)
    (vals : List (Option Nat)) :
    runTask w (fuel + 1) st (.fire (.completeMod name k) vals) =
      runTask w fuel
        { st with loading := st.loading.erase name,
                  cache := lcacheSet st.cache name ((w name).val) }
        (.rep k ((w name).val)) := rfl

lemma runTask_inv (w : World) : ∀ (fuel : Nat) (st : LS) (t : Task),
    Inv st → Inv (runTask w fuel st t).1 := by
  intro fuel
  induction fuel with
  | zero => intro st t h; exact h
  | succ fuel ih =>
    intro st t h
    cases t with
    | rep k v =>
      cases hj : st.joins.get? k.join with
      | none =>
        rw [runTask_rep_none w fuel st k v hj]
        exact h
      | some js =>
        rw [runTask_rep_some w fuel st k v js hj]
        split
        · exact ih _ _ h
        · exact h
    | fire par vals =>
      cases par with
      | root rid =>
        rw [runTask_fire_root]
        exact h
      | completeMod name k =>
        rw [runTask_fire_complete]
        apply ih
        constructor
        · exact List.Nodup.erase name h.1
        · intro m hm
          rw [lookup_lcacheSet]
          have hm1 := (List.Nodup.mem_erase_iff h.1).mp hm
          rw [if_neg hm1.1]
          exact h.2 m hm1.2

lemma runTask_fetches (w : World) : ∀ (fuel : Nat) (st : LS) (t : Task),
    (runTask w fuel st t).1.fetches = st.fetches := by
  intro fuel
  induction fuel with
  | zero => intro st t; rfl
  | succ fuel ih =>
    intro st t
    cases t with
    | rep k v =>
      cases hj : st.joins.get? k.join with
      | none =>
        rw [runTask_rep_none w fuel st k v hj]
      | some js =>
        rw [runTask_rep_some w fuel st k v js hj]
        split
        · exact ih _ _
        · rfl
    | fire par vals =>
      cases par with
      | root rid =>
        rw [runTask_fire_root]
      | completeMod name k =>
        rw [runTask_fire_complete]
        exact ih _ _

lemma runTask_loading_sub (w : World) : ∀ (fuel : Nat) (st : LS) (t : Task),
    (runTask w fuel st t).1.loading ⊆ st.loading := by
  intro fuel
  induction fuel with
  | zero => intro st t; exact fun x hx => hx
  | succ fuel ih =>
    intro st t
    cases t with
    | rep k v =>
      cases hj : st.joins.get? k.join with
      | none =>
        rw [runTask_rep_none w fuel st k v hj]
        exact fun x hx => hx
      | some js =>
        rw [runTask_rep_some w fuel st k v js hj]
        split
        · exact ih _ _
        · exact fun x hx => hx
    | fire par vals =>
      cases par with
      | root rid =>
        rw [runTask_fire_root]
        exact fun x hx => hx
      | completeMod name k =>
        rw [runTask_fire_complete]
        intro x hx
        exact List.erase_subset name st.loading (ih _ _ hx)

lemma loadModuleM_inv (w : World) (fuel : Nat) (st : LS) (name : Str) (k : ContK)
    (h : Inv st) : Inv (loadModuleM w fuel st name k).1 := by
  unfold loadModuleM
  cases hc : st.cache.lookup name with
  | some v => exact runTask_inv w fuel st (.rep k v) h
  | none =>
    by_cases hl : name ∈ st.loading
    · rw [if_pos hl]
      exact h
    · rw [if_neg hl]
      refine ⟨List.nodup_cons.mpr ⟨hl, h.1⟩, ?_⟩
      intro m hm
      rcases List.mem_cons.mp hm with rfl | hm1
      · exact hc
      · exact h.2 m hm1

lemma loopForks_inv (w : World) (fuel : Nat) : ∀ (names : List Str) (st : LS) (j i : Nat),
    Inv st → Inv (loopForks w fuel st names j i).1 := by
  intro names
  induction names with
  | nil => intro st j i h; exact h
  | cons nm rest ih =>
    intro st j i h
    simp only [loopForks]
    rcases hlm : loadModuleM w fuel st nm ⟨j, i⟩ with ⟨st1, err⟩
    have h1 : Inv st1 := by
      have := loadModuleM_inv w fuel st nm ⟨j, i⟩ h
      rw [hlm] at this
      exact this
    cases err with
    | none => exact ih st1 j (i + 1) h1
    | some e => exact h1

lemma loadModulesM_inv (w : World) (fuel : Nat) (st : LS) (names : List Str) (par : Parent)
    (h : Inv st) : Inv (loadModulesM w fuel st names par).1 := by
  unfold loadModulesM
  by_cases he : names.isEmpty
  · rw [if_pos he]
    exact runTask_inv w fuel st (.fire par []) h
  · rw [if_neg he]
    exact loopForks_inv w fuel names _ st.joins.length 0 h

lemma stepEv_inv (w : World) (fuel : Nat) (st : LS) (e : Ev) (h : Inv st) :
    Inv (stepEv w fuel st e).1 := by
  cases e with
  | require rid names => exact loadModulesM_inv w fuel st names (.root rid) h
  | respond name =>
    simp only [stepEv]
    cases hf : findPending st.pending name with
    | none => exact h
    | some pk =>
      obtain ⟨k, pending1⟩ := pk
      exact loadModulesM_inv w fuel _ (w name).deps (.completeMod name k) h

/-- Claim C4: an identifier that is in the In-Flight Set (and, by the loader
invariant, uncached) when `loadModule` is called fails immediately with the
cycle error, leaving the state untouched, so its continuation is never
invoked; every event turn preserves the invariant that no in-flight
identifier is cached, so no module of an unfinished cycle chain is ever in
the cache; concretely, the two-module cycle `a ↔ b` aborts with
`CycleDetected(a)`, delivers nothing, and caches nothing. -/
theorem c4_cycle_detection :
    (∀ (w : World) (fuel : Nat) (st : LS) (name : Str) (k : ContK),
        Inv st → name ∈ st.loading →
        loadModuleM w fuel st name k = (st, some (.cycle name)))
    ∧ (∀ (w : World) (fuel : Nat) (st : LS) (e : Ev),
        Inv st → Inv (stepEv w fuel st e).1)
    ∧ ((runEvs wCyc 30 st0 [.require 1 [nmA], .respond nmA, .respond nmB]).2
        = [.cycle nmA]
      ∧ (runEvs wCyc 30 st0 [.require 1 [nmA], .respond nmA, .respond nmB]).1.delivered = []
      ∧ (runEvs wCyc 30 st0 [.require 1 [nmA], .respond nmA, .respond nmB]).1.cache = []) := by
  refine ⟨?_, fun w fuel st e h => stepEv_inv w fuel st e h, by decide, by decide, by decide⟩
  intro w fuel st name k hinv hl
  have hc : st.cache.lookup name = none := hinv.2 name hl
  unfold loadModuleM
  rw [hc, if_pos hl]

/-- Witness for C4 at a state in which `a` is in flight. -/
theorem c4_cycle_detection_witness :
    Inv ⟨[], [nmA], [], [], [nmA], []⟩
    ∧ loadModuleM wCyc 5 ⟨[], [nmA], [], [], [nmA], []⟩ nmA ⟨0, 0⟩
        = (⟨[], [nmA], [], [], [nmA], []⟩, some (.cycle nmA)) :=
  ⟨⟨by decide, by decide⟩,
    c4_cycle_detection.1 wCyc 5 _ nmA ⟨0, 0⟩ ⟨by decide, by decide⟩ (by decide)⟩

/-- Claim C5 as stated is false: `delete currentlyLoading[name]` sits on the
success path only (inside the response continuation, after the dependencies
loaded), so a load attempt that ends in an error leaves its In-Flight marker
behind.  In the two-module cycle run, `b`'s load attempt terminates with the
cycle error raised while loading its dependency `a`, yet both `a` and `b`
are still in the In-Flight Set afterwards. -/
theorem c5_counterexample :
    (runEvs wCyc 30 st0 [.require 1 [nmA], .respond nmA, .respond nmB]).2 = [.cycle nmA]
    ∧ (runEvs wCyc 30 st0 [.require 1 [nmA], .respond nmA, .respond nmB]).1.loading
        = [nmB, nmA] := by
  exact ⟨by decide, by decide⟩

/-- Claim C5, amended: the In-Flight marker is removed exactly when a load
completes successfully — completing a module erases its marker before
caching and reporting, and the subsequent synchronous completion chain never
re-adds it; a load attempt that terminates with an error does not remove any
marker (in the cycle run, both chain members remain in flight after the
error). -/
theorem c5_amended :
    (∀ (w : World) (fuel : Nat) (st : LS) (name : Str) (k : ContK)
        (vals : List (Option Nat)), st.loading.Nodup →
        name ∉ (runTask w (fuel + 1) st (.fire (.completeMod name k) vals)).1.loading)
    ∧ ((runEvs wCyc 30 st0 [.require 1 [nmA], .respond nmA, .respond nmB]).2 = [.cycle nmA]
      ∧ nmA ∈ (runEvs wCyc 30 st0 [.require 1 [nmA], .respond nmA, .respond nmB]).1.loading
      ∧ nmB ∈ (runEvs wCyc 30 st0 [.require 1 [nmA], .respond nmA, .respond nmB]).1.loading)
    := by
  constructor
  · intro w fuel st name k vals hnd hmem
    rw [runTask_fire_complete] at hmem
    have hsub := runTask_loading_sub w fuel _ (.rep k ((w name).val)) hmem
    exact ((List.Nodup.mem_erase_iff hnd).mp hsub).1 rfl
  · exact ⟨by decide, by decide, by decide⟩

/-- Witness for the amended C5: completing `m` removes its marker. -/
theorem c5_amended_witness :
    ([nmM] : List Str).Nodup
    ∧ nmM ∉ (runTask wM 3 ⟨[], [nmM], [], [], [], []⟩
        (.fire (.completeMod nmM ⟨0, 0⟩) [])).1.loading :=
  ⟨by decide, c5_amended.1 wM 2 _ nmM ⟨0, 0⟩ [] (by decide)⟩

/-- Claim C1 as stated is false: the code does not coalesce a second request
for an identifier whose load is still in flight — it throws the cycle error
instead, and the second requester's continuation is never invoked.  In the
run below, requester 2 asks for `m` while `m` is in flight: only requester 1
is ever delivered to, the second turn ends in `CycleDetected(m)` (one fetch
is still all that is issued). -/
theorem c1_counterexample :
    (runEvs wM 30 st0 [.require 1 [nmM], .require 2 [nmM], .respond nmM]).1.delivered
        = [(1, [some 7])]
    ∧ (runEvs wM 30 st0 [.require 1 [nmM], .require 2 [nmM], .respond nmM]).2
        = [.cycle nmM]
    ∧ (runEvs wM 30 st0 [.require 1 [nmM], .require 2 [nmM], .respond nmM]).1.fetches
        = [nmM] := by
  exact ⟨by decide, by decide, by decide⟩

/-- Claim C1, amended: a second request for an identifier issued after its
first load completes is served from the cache — it issues no new fetch and
reports the cached value, so both requesters receive the identical Module
Value from a single fetch (shown concretely below); but a second request
issued while the identifier is still in flight is not coalesced: it throws
the cycle error with the state unchanged (no second fetch, and the second
requester's callback is never invoked). -/
theorem c1_amended :
    (∀ (w : World) (fuel : Nat) (st : LS) (name : Str) (k : ContK) (v : Nat),
        st.cache.lookup name = some v →
        loadModuleM w fuel st name k = runTask w fuel st (.rep k v)
        ∧ (loadModuleM w fuel st name k).1.fetches = st.fetches)
    ∧ (∀ (w : World) (fuel : Nat) (st : LS) (name : Str) (k : ContK),
        st.cache.lookup name = none → name ∈ st.loading →
        loadModuleM w fuel st name k = (st, some (.cycle name)))
    ∧ ((runEvs wM 30 st0 [.require 1 [nmM], .respond nmM, .require 2 [nmM]]).1.delivered
          = [(1, [some 7]), (2, [some 7])]
      ∧ (runEvs wM 30 st0 [.require 1 [nmM], .respond nmM, .require 2 [nmM]]).1.fetches
          = [nmM]
      ∧ (runEvs wM 30 st0 [.require 1 [nmM], .respond nmM, .require 2 [nmM]]).2 = []) := by
  refine ⟨?_, ?_, by decide, by decide, by decide⟩
  · intro w fuel st name k v hc
    constructor
    · unfold loadModuleM
      rw [hc]
    · unfold loadModuleM
      rw [hc]
      exact runTask_fetches w fuel st (.rep k v)
  · intro w fuel st name k hc hl
    unfold loadModuleM
    rw [hc, if_pos hl]

/-- Witness for the amended C1: a cached `m` is reported without fetching. -/
theorem c1_amended_witness :
    (⟨[(nmM, 7)], [], [], [], [], []⟩ : LS).cache.lookup nmM = some 7
    ∧ loadModuleM wM 4 ⟨[(nmM, 7)], [], [], [], [], []⟩ nmM ⟨0, 0⟩
        = runTask wM 4 ⟨[(nmM, 7)], [], [], [], [], []⟩ (.rep ⟨0, 0⟩ 7)
    ∧ (loadModuleM wM 4 ⟨[(nmM, 7)], [], [], [], [], []⟩ nmM ⟨0, 0⟩).1.fetches = [] :=
  ⟨by decide, (c1_amended.1 wM 4 _ nmM ⟨0, 0⟩ 7 (by decide)).1,
    (c1_amended.1 wM 4 _ nmM ⟨0, 0⟩ 7 (by decide)).2⟩

end Lobrow
